import Mathlib

/-!
# AuraLens — verification of the core text-pipeline components

Shallow embedding of the AuraLens OCR pipeline (Python) in Lean 4.
Python `str` values are embedded as `List Char`; Python `set` as `Finset`;
the on-disk page cache as an explicit association list from file names to
file contents.  Fallible code is embedded with `Except`, and the network is
an oracle parameter (one outcome per HTTP attempt / per page).

Sources embedded here:
* `src/core/book_assembler.py`  (`join_pages`, `_join_boundary`, `assemble`,
  `get_completed_pages`, `DEFAULT_SEPARATOR`)
* `src/core/page_cache.py`      (naming, `load_page_text`,
  `list_cached_page_texts`, `list_cached_pages`)
* `src/core/workflow_orchestrator.py` (`calculate_resume_pages`)
* `src/core/vlm_client.py`      (`strip_thinking_tags`, `process_image`,
  `_check_status`, `_extract_text`, retry loop)
* `src/core/image_utils.py`     (`calculate_scale_factor`, `resize_for_vlm`)
* `src/gui/workers.py`          (`OCRWorker._process_pages`)
* `src/gui/main_window.py`      (`_on_page_completed`, `_on_page_error`,
  `_ensure_page_slots`)
-/

/-! ## Python string primitives

Python `str.strip` / `lstrip` / `rstrip` with no argument remove the
characters Python considers whitespace (space, tab, newline, carriage
return, vertical tab, form feed). -/

/-- The whitespace set used by Python's `str.strip()` family. -/
def isPySpace (c : Char) : Bool :=
  c = ' ' || c = '\t' || c = '\n' || c = '\r' || c = '\x0b' || c = '\x0c'

/-- Python `s.lstrip()`. -/
def lstripL (s : List Char) : List Char := s.dropWhile isPySpace

/-- Python `s.rstrip()`. -/
def rstripL (s : List Char) : List Char := (s.reverse.dropWhile isPySpace).reverse

/-- Python `s.strip()`. -/
def stripL (s : List Char) : List Char := rstripL (lstripL s)

theorem dropWhile_idem (p : Char → Bool) (l : List Char) :
    (l.dropWhile p).dropWhile p = l.dropWhile p := by
  induction l with
  | nil => rfl
  | cons c t ih =>
    by_cases h : p c
    · simp [List.dropWhile, h, ih]
    · simp [List.dropWhile, h]

theorem lstripL_idem (s : List Char) : lstripL (lstripL s) = lstripL s :=
  dropWhile_idem _ _

theorem rstripL_idem (s : List Char) : rstripL (rstripL s) = rstripL s := by
  simp [rstripL, dropWhile_idem]

/-- A nonempty list whose `dropWhile` is itself has a head that fails the
predicate. -/
theorem head_not_of_dropWhile_self (p : Char → Bool) (c : Char) (t : List Char)
    (h : (c :: t).dropWhile p = c :: t) : ¬ p c = true := by
  intro hc
  rw [List.dropWhile_cons, if_pos hc] at h
  have h1 : (t.dropWhile p).length ≤ t.length := (List.dropWhile_sublist _).length_le
  have h2 := congrArg List.length h
  simp at h2
  omega

/-- If `b` is nonempty and already right-stripped, right-stripping `a ++ b`
is a no-op. -/
theorem rstripL_append (a b : List Char) (hb : b ≠ []) (hrb : rstripL b = b) :
    rstripL (a ++ b) = a ++ b := by
  have hrev : b.reverse.dropWhile isPySpace = b.reverse := by
    have h := congrArg List.reverse hrb
    rw [rstripL, List.reverse_reverse] at h
    exact h
  obtain ⟨c, t, hct⟩ : ∃ c t, b.reverse = c :: t := by
    cases hb' : b.reverse with
    | nil => exact absurd (by simpa using congrArg List.reverse hb') hb
    | cons c t => exact ⟨c, t, rfl⟩
  have hc : ¬ isPySpace c = true := by
    rw [hct] at hrev
    exact head_not_of_dropWhile_self _ _ _ hrev
  rw [rstripL, List.reverse_append, hct, List.cons_append,
    List.dropWhile_cons, if_neg hc, ← List.cons_append, ← hct,
    ← List.reverse_append, List.reverse_reverse]

/-- The string `rstripL z` is a prefix of `z`: some `t` has `rstripL z ++ t = z`. -/
theorem rstripL_append_eq (z : List Char) :
    rstripL z ++ (z.reverse.takeWhile isPySpace).reverse = z := by
  have h := List.takeWhile_append_dropWhile (p := isPySpace) (l := z.reverse)
  have h2 := congrArg List.reverse h
  rw [List.reverse_append, List.reverse_reverse] at h2
  exact h2

/-- Applying `rstripL` to a left-stripped string keeps it left-stripped. -/
theorem lstripL_rstripL (z : List Char) (hzl : lstripL z = z) :
    lstripL (rstripL z) = rstripL z := by
  obtain ⟨t, ht⟩ : ∃ t, rstripL z ++ t = z := ⟨_, rstripL_append_eq z⟩
  cases hr : rstripL z with
  | nil => simp [lstripL, List.dropWhile]
  | cons c tl =>
    have hC : z = c :: (tl ++ t) := by rw [← ht, hr]; simp
    have hcz : ¬ isPySpace c = true := by
      rw [hC] at hzl
      exact head_not_of_dropWhile_self _ _ _ hzl
    show List.dropWhile isPySpace (c :: tl) = c :: tl
    simp [List.dropWhile_cons, hcz]

theorem lstripL_rstripL_lstripL (s : List Char) :
    lstripL (rstripL (lstripL s)) = rstripL (lstripL s) :=
  lstripL_rstripL _ (lstripL_idem s)

theorem rstripL_stripL (s : List Char) : rstripL (stripL s) = stripL s := by
  simp [stripL, rstripL_idem]

theorem lstripL_stripL (s : List Char) : lstripL (stripL s) = stripL s := by
  simp [stripL, lstripL_rstripL_lstripL]

/-! ## `BookAssembler.join_pages` (src/core/book_assembler.py)

`_join_boundary` applies the boundary rule between two adjacent page texts;
`join_pages` strips each page, drops empty pages and folds `_join_boundary`
left to right. -/

/-- Embedding of `BookAssembler._join_boundary` (book_assembler.py lines 118-140). -/
def _join_boundary (left right : List Char) : List Char :=
  let left_s := rstripL left
  let right_s := lstripL right
  if left_s = [] then right_s
  else if right_s = [] then left_s
  else if ['-'].isSuffixOf left_s then left_s.dropLast ++ right_s
  else if ['.', '.', '.'].isSuffixOf left_s then left_s ++ ' ' :: right_s
  else if left_s.getLast? = some '.' ∨ left_s.getLast? = some '?' ∨
      left_s.getLast? = some '!' then
    left_s ++ '\n' :: '\n' :: '\n' :: '\n' :: right_s
  else if left_s.getLast? = some ':' ∨ left_s.getLast? = some ';' then
    left_s ++ ' ' :: right_s
  else left_s ++ ' ' :: right_s

/-- Embedding of `BookAssembler.join_pages` (book_assembler.py lines 96-116). -/
def join_pages (page_texts : List (List Char)) : List Char :=
  let pages := (page_texts.map stripL).filter (fun p => !p.isEmpty)
  match pages with
  | [] => []
  | p :: rest => rest.foldl _join_boundary p

/-- The boundary rule exactly as claim C1 words it: an ordered if/else chain
on the accumulated result, with no re-stripping and no empty-side
short-circuit. -/
def specJoinBoundary (result next : List Char) : List Char :=
  if ['-'].isSuffixOf result then result.dropLast ++ next
  else if ['.', '.', '.'].isSuffixOf result then result ++ ' ' :: next
  else if result.getLast? = some '.' ∨ result.getLast? = some '?' ∨
      result.getLast? = some '!' then
    result ++ '\n' :: '\n' :: '\n' :: '\n' :: next
  else if result.getLast? = some ':' ∨ result.getLast? = some ';' then
    result ++ ' ' :: next
  else result ++ ' ' :: next

/-- Definition of `join_pages` as claim C1 describes it: strip every page, drop the empty
ones (an empty list of pages yields the empty string), then fold
`specJoinBoundary` left to right. -/
def specJoinPages (page_texts : List (List Char)) : List Char :=
  let pages := (page_texts.map stripL).filter (fun p => !p.isEmpty)
  match pages with
  | [] => []
  | p :: rest => rest.foldl specJoinBoundary p

theorem join_boundary_eq_spec (l r : List Char) (hl : l ≠ []) (hrl : rstripL l = l)
    (hr : r ≠ []) (hlr : lstripL r = r) :
    _join_boundary l r = specJoinBoundary l r := by
  unfold _join_boundary
  rw [hrl, hlr]
  simp only [if_neg hl, if_neg hr]
  rfl

theorem join_boundary_inv (l r : List Char) (hl : l ≠ []) (hrl : rstripL l = l)
    (hr : r ≠ []) (hlr : lstripL r = r) (hrr : rstripL r = r) :
    _join_boundary l r ≠ [] ∧ rstripL (_join_boundary l r) = _join_boundary l r := by
  have key : ∀ x : List Char, x ++ r ≠ [] ∧ rstripL (x ++ r) = x ++ r := by
    intro x
    refine ⟨by simp [hr], rstripL_append x r hr hrr⟩
  have key2 : ∀ (x : List Char) (c : Char),
      x ++ c :: r ≠ [] ∧ rstripL (x ++ c :: r) = x ++ c :: r := by
    intro x c
    have h := key (x ++ [c])
    simpa using h
  unfold _join_boundary
  rw [hrl, hlr]
  simp only [if_neg hl, if_neg hr]
  split_ifs
  · exact key _
  · exact key2 _ _
  · have h := key (l ++ ['\n', '\n', '\n', '\n'])
    simpa using h
  · exact key2 _ _
  · exact key2 _ _

theorem joinPages_fold_eq (rest : List (List Char)) :
    ∀ acc : List Char, acc ≠ [] → rstripL acc = acc →
    (∀ r ∈ rest, r ≠ [] ∧ lstripL r = r ∧ rstripL r = r) →
    rest.foldl _join_boundary acc = rest.foldl specJoinBoundary acc := by
  induction rest with
  | nil => intro acc _ _ _; rfl
  | cons r tl ih =>
    intro acc hacc hracc hall
    obtain ⟨hr, hlr, hrr⟩ := hall r (List.mem_cons_self r tl)
    have hb := join_boundary_eq_spec acc r hacc hracc hr hlr
    have hinv := join_boundary_inv acc r hacc hracc hr hlr hrr
    simp only [List.foldl_cons]
    rw [← hb]
    exact ih _ hinv.1 hinv.2 (fun x hx => hall x (List.mem_cons_of_mem _ hx))

theorem join_pages_eq_spec (page_texts : List (List Char)) :
    join_pages page_texts = specJoinPages page_texts := by
  unfold join_pages specJoinPages
  have hall : ∀ p ∈ (page_texts.map stripL).filter (fun p => !p.isEmpty),
      p ≠ [] ∧ lstripL p = p ∧ rstripL p = p := by
    intro p hp
    rw [List.mem_filter] at hp
    obtain ⟨hpm, hpe⟩ := hp
    rw [List.mem_map] at hpm
    obtain ⟨q, _, hq⟩ := hpm
    refine ⟨by simpa using hpe, ?_, ?_⟩
    · rw [← hq]; exact lstripL_stripL q
    · rw [← hq]; exact rstripL_stripL q
  cases hps : (page_texts.map stripL).filter (fun p => !p.isEmpty) with
  | nil => rfl
  | cons p rest =>
    rw [hps] at hall
    exact joinPages_fold_eq rest p (hall p (List.mem_cons_self p rest)).1
      (hall p (List.mem_cons_self p rest)).2.2
      (fun x hx => hall x (List.mem_cons_of_mem _ hx))

/-! ## Decimal digits

Python `str(n)` for a nonnegative int, and `int(s)` on a digit string.
Fuel-based so that everything reduces by `rfl`/`decide`. -/

/-- The character for a single decimal digit. -/
def digitChar : ℕ → Char
  | 0 => '0' | 1 => '1' | 2 => '2' | 3 => '3' | 4 => '4'
  | 5 => '5' | 6 => '6' | 7 => '7' | 8 => '8' | 9 => '9'
  | _ => '*'

/-- Numeric value of a digit character. -/
def digitVal (c : Char) : ℕ := c.toNat - 48

def natDigitsF : ℕ → ℕ → List Char
  | 0, _ => []
  | fuel + 1, n =>
      if n < 10 then [digitChar n]
      else natDigitsF fuel (n / 10) ++ [digitChar (n % 10)]

/-- Decimal representation of `n`: Python `str(n)`. -/
def natDigits (n : ℕ) : List Char := natDigitsF (n + 1) n

/-- Python `int(s)` for a string of decimal digits. -/
def natOfDigits (ds : List Char) : ℕ := ds.foldl (fun a c => 10 * a + digitVal c) 0

theorem natDigitsF_stable : ∀ f g n : ℕ, n < f → n < g → natDigitsF f n = natDigitsF g n := by
  intro f
  induction f with
  | zero => intro g n h; omega
  | succ f ih =>
    intro g n hf hg
    cases g with
    | zero => omega
    | succ g =>
      show natDigitsF (f + 1) n = natDigitsF (g + 1) n
      by_cases h10 : n < 10
      · simp [natDigitsF, h10]
      · have hdiv : n / 10 < n := Nat.div_lt_self (by omega) (by norm_num)
        simp only [natDigitsF, if_neg h10]
        rw [ih g (n / 10) (by omega) (by omega)]

theorem natDigits_unfold (n : ℕ) :
    natDigits n = if n < 10 then [digitChar n]
      else natDigits (n / 10) ++ [digitChar (n % 10)] := by
  show natDigitsF (n + 1) n = _
  by_cases h10 : n < 10
  · simp [natDigitsF, h10]
  · have hdiv : n / 10 < n := Nat.div_lt_self (by omega) (by norm_num)
    simp only [natDigitsF, if_neg h10]
    rw [natDigitsF_stable n (n / 10 + 1) (n / 10) (by omega) (by omega)]
    rfl

theorem digitVal_digitChar (d : ℕ) (h : d < 10) : digitVal (digitChar d) = d := by
  interval_cases d <;> decide

theorem isDigit_digitChar (d : ℕ) (h : d < 10) : (digitChar d).isDigit = true := by
  interval_cases d <;> decide

theorem natDigits_all_digit (n : ℕ) : ∀ c ∈ natDigits n, c.isDigit = true := by
  induction n using Nat.strong_induction_on with
  | _ n ih =>
    rw [natDigits_unfold]
    by_cases h10 : n < 10
    · simp only [if_pos h10, List.mem_singleton]
      intro c hc; subst hc; exact isDigit_digitChar n h10
    · have hdiv : n / 10 < n := Nat.div_lt_self (by omega) (by norm_num)
      simp only [if_neg h10]
      intro c hc
      rw [List.mem_append] at hc
      rcases hc with hc | hc
      · exact ih (n / 10) hdiv c hc
      · rw [List.mem_singleton] at hc; subst hc
        exact isDigit_digitChar _ (Nat.mod_lt n (by norm_num))

theorem natDigits_ne_nil (n : ℕ) : natDigits n ≠ [] := by
  rw [natDigits_unfold]
  by_cases h10 : n < 10 <;> simp [h10]

theorem natOfDigits_append_singleton (a : List Char) (c : Char) :
    natOfDigits (a ++ [c]) = 10 * natOfDigits a + digitVal c := by
  simp [natOfDigits, List.foldl_append]

theorem natOfDigits_natDigits (n : ℕ) : natOfDigits (natDigits n) = n := by
  induction n using Nat.strong_induction_on with
  | _ n ih =>
    rw [natDigits_unfold]
    by_cases h10 : n < 10
    · simp only [if_pos h10]
      show 10 * 0 + digitVal (digitChar n) = n
      rw [digitVal_digitChar n h10]
      omega
    · have hdiv : n / 10 < n := Nat.div_lt_self (by omega) (by norm_num)
      simp only [if_neg h10]
      rw [natOfDigits_append_singleton, ih (n / 10) hdiv,
        digitVal_digitChar _ (Nat.mod_lt n (by norm_num))]
      omega

/-! ## `BookAssembler.assemble` and `get_completed_pages`
(src/core/book_assembler.py)

`assemble` joins page texts, inserting
`DEFAULT_SEPARATOR.replace("{n}", str(i + 1))` before every page except the
first.  `get_completed_pages` scans an output file's content with the regex
`--- Page (\d+) ---` (Python `findall`) and returns the set of captured
page numbers. -/

/-- Python `s.replace(pat, repl)` (non-overlapping, left to right), with
explicit fuel so the definition is structural. -/
def pyReplaceF (pat repl : List Char) : ℕ → List Char → List Char
  | _, [] => []
  | 0, s => s
  | fuel + 1, c :: rest =>
      if pat.isPrefixOf (c :: rest) then
        repl ++ pyReplaceF pat repl fuel (List.drop pat.length (c :: rest))
      else c :: pyReplaceF pat repl fuel rest

/-- Python `s.replace(pat, repl)`. -/
def pyReplace (pat repl s : List Char) : List Char := pyReplaceF pat repl s.length s

/-- Embedding of `DEFAULT_SEPARATOR` (book_assembler.py line 16). -/
def DEFAULT_SEPARATOR : List Char := "\n\n--- Page {n} ---\n\n".toList

/-- The instantiated separator: `self._separator.replace("{n}", str(n))`. -/
def sepInstance (sep : List Char) (n : ℕ) : List Char :=
  pyReplace "{n}".toList (natDigits n) sep

/-- The parts list built by `BookAssembler.assemble` (lines 50-54). -/
def assembleParts (sep : List Char) (page_texts : List (List Char)) : List (List Char) :=
  (page_texts.enum).flatMap
    (fun it => if it.1 > 0 then [sepInstance sep (it.1 + 1), it.2] else [it.2])

/-- Embedding of `BookAssembler.assemble` (book_assembler.py lines 42-56). -/
def assemble (sep : List Char) (page_texts : List (List Char)) : List Char :=
  match page_texts with
  | [] => []
  | [t] => t
  | _ => (assembleParts sep page_texts).foldl (· ++ ·) []

/-- Try to match the regex `--- Page (\d+) ---` at the head of `s`; on
success return the captured number and the remainder after the match.
(`\d+` is greedy, so the capture is the maximal digit run, and the match
succeeds exactly when that run is nonempty and followed by `" ---"`.) -/
def matchPageSep (s : List Char) : Option (ℕ × List Char) :=
  if "--- Page ".toList.isPrefixOf s then
    let t := s.drop 9
    let ds := t.takeWhile Char.isDigit
    if ds.isEmpty then none
    else
      let t2 := t.drop ds.length
      if " ---".toList.isPrefixOf t2 then some (natOfDigits ds, t2.drop 4)
      else none
  else none

/-- Python `re.findall(r"--- Page (\d+) ---", s)` with the captures parsed
as ints: scan left to right, resume after each match. Fuel-based. -/
def findallPagesF : ℕ → List Char → List ℕ
  | 0, _ => []
  | _ + 1, [] => []
  | fuel + 1, c :: rest =>
      match matchPageSep (c :: rest) with
      | some (n, after) => n :: findallPagesF fuel after
      | none => findallPagesF fuel rest

def findallPages (s : List Char) : List ℕ := findallPagesF s.length s

/-- Embedding of `BookAssembler.get_completed_pages` (book_assembler.py lines 27-40),
applied to the content of the output file (a missing or unreadable file is
the empty content at this layer and yields the empty set). -/
def get_completed_pages (content : List Char) : Finset ℕ :=
  (findallPages content).toFinset

/-! ### Boolean prefix helpers -/

theorem isPrefixOf_append_self (a b : List Char) : a.isPrefixOf (a ++ b) = true := by
  induction a with
  | nil => simp [List.isPrefixOf]
  | cons c t ih => simp [List.isPrefixOf, ih]

theorem eq_append_drop_of_isPrefixOf (a : List Char) :
    ∀ s : List Char, a.isPrefixOf s = true → s = a ++ s.drop a.length := by
  induction a with
  | nil => intro s _; simp
  | cons c t ih =>
    intro s h
    cases s with
    | nil => simp [List.isPrefixOf] at h
    | cons d s' =>
      simp only [List.isPrefixOf, Bool.and_eq_true, beq_iff_eq] at h
      obtain ⟨rfl, h2⟩ := h
      have := ih s' h2
      simp [List.length_cons, List.drop_succ_cons]
      exact this

theorem take_of_isPrefixOf (a s : List Char) (h : a.isPrefixOf s = true) :
    s.take a.length = a := by
  conv_lhs => rw [eq_append_drop_of_isPrefixOf a s h]
  exact List.take_left a _

/-! ### A view of `assemble` as head page plus separator-prefixed tail -/

/-- The tail of an assembled document: pages with their separators, the
first one numbered `i`. -/
def tailA (sep : List Char) : ℕ → List (List Char) → List Char
  | _, [] => []
  | i, t :: ts => sepInstance sep i ++ t ++ tailA sep (i + 1) ts

theorem foldl_append_eq_flatten (l : List (List Char)) :
    ∀ init : List Char, l.foldl (· ++ ·) init = init ++ l.flatten := by
  induction l with
  | nil => intro init; simp
  | cons x xs ih =>
    intro init
    simp only [List.foldl_cons, List.flatten_cons, ih, List.append_assoc]

theorem enumFrom_parts_eq_tailA (sep : List Char) (ts : List (List Char)) :
    ∀ i : ℕ, 1 ≤ i →
    ((List.enumFrom i ts).flatMap
      (fun it => if it.1 > 0 then [sepInstance sep (it.1 + 1), it.2] else [it.2])).flatten
      = tailA sep (i + 1) ts := by
  induction ts with
  | nil => intro i _; rfl
  | cons t ts' ih =>
    intro i hi
    rw [List.enumFrom_cons, List.flatMap_cons]
    rw [if_pos (by omega : i > 0)]
    simp only [List.flatten_append]
    rw [ih (i + 1) (by omega)]
    show sepInstance sep (i + 1) ++ (t ++ []) ++ _ = _
    simp [tailA, List.append_assoc]

theorem assemble_view (sep : List Char) (t0 r : List Char) (rs : List (List Char)) :
    assemble sep (t0 :: r :: rs) = t0 ++ tailA sep 2 (r :: rs) := by
  show (assembleParts sep (t0 :: r :: rs)).foldl (· ++ ·) [] = _
  rw [foldl_append_eq_flatten, List.nil_append]
  unfold assembleParts
  rw [List.enum_cons, List.flatMap_cons]
  rw [if_neg (by omega : ¬ (0:ℕ) > 0)]
  simp only [List.flatten_append]
  rw [enumFrom_parts_eq_tailA sep (r :: rs) 1 (le_refl 1)]
  simp

/-! ### Scanning lemmas for `findallPages` -/

theorem matchPageSep_some_length (s : List Char) (n : ℕ) (after : List Char)
    (h : matchPageSep s = some (n, after)) : after.length < s.length := by
  unfold matchPageSep at h
  by_cases h1 : "--- Page ".toList.isPrefixOf s = true
  · rw [if_pos h1] at h
    simp only at h
    by_cases h2 : ((s.drop 9).takeWhile Char.isDigit).isEmpty = true
    · rw [if_pos h2] at h; exact absurd h (by simp)
    · rw [if_neg h2] at h
      by_cases h3 : (" ---".toList.isPrefixOf
          ((s.drop 9).drop ((s.drop 9).takeWhile Char.isDigit).length)) = true
      · rw [if_pos h3] at h
        have hafter : after =
            ((s.drop 9).drop ((s.drop 9).takeWhile Char.isDigit).length).drop 4 := by
          have := congrArg (fun o => Option.map Prod.snd o) h
          simpa using this.symm
        have h9 : 9 ≤ s.length := by
          have := congrArg List.length (eq_append_drop_of_isPrefixOf _ s h1)
          simp at this
          omega
        have hds : 1 ≤ ((s.drop 9).takeWhile Char.isDigit).length := by
          cases hE : ((s.drop 9).takeWhile Char.isDigit) with
          | nil => rw [hE] at h2; simp at h2
          | cons a b => simp [hE]
        subst hafter
        simp only [List.length_drop]
        omega
      · rw [if_neg h3] at h; exact absurd h (by simp)
  · rw [if_neg h1] at h; exact absurd h (by simp)

theorem findallPagesF_succ_none (f : ℕ) (c : Char) (rest : List Char)
    (h : matchPageSep (c :: rest) = none) :
    findallPagesF (f + 1) (c :: rest) = findallPagesF f rest := by
  simp only [findallPagesF, h]

theorem findallPagesF_succ_some (f : ℕ) (c : Char) (rest after : List Char) (n : ℕ)
    (h : matchPageSep (c :: rest) = some (n, after)) :
    findallPagesF (f + 1) (c :: rest) = n :: findallPagesF f after := by
  simp only [findallPagesF, h]

theorem findallPagesF_stable : ∀ f g : ℕ, ∀ s : List Char,
    s.length ≤ f → s.length ≤ g → findallPagesF f s = findallPagesF g s := by
  intro f
  induction f with
  | zero =>
    intro g s hf _
    have : s = [] := List.eq_nil_of_length_eq_zero (by omega)
    subst this
    cases g <;> rfl
  | succ f ih =>
    intro g s hf hg
    cases s with
    | nil => cases g <;> rfl
    | cons c rest =>
      cases g with
      | zero => simp at hg
      | succ g =>
        cases hm : matchPageSep (c :: rest) with
        | none =>
          rw [findallPagesF_succ_none f c rest hm, findallPagesF_succ_none g c rest hm]
          simp only [List.length_cons] at hf hg
          exact ih g rest (by omega) (by omega)
        | some p =>
          obtain ⟨n, after⟩ := p
          rw [findallPagesF_succ_some f c rest after n hm,
            findallPagesF_succ_some g c rest after n hm]
          have hl := matchPageSep_some_length _ _ _ hm
          simp only [List.length_cons] at hl hf hg
          rw [ih g after (by omega) (by omega)]

theorem findallPages_cons_none (c : Char) (rest : List Char)
    (h : matchPageSep (c :: rest) = none) :
    findallPages (c :: rest) = findallPages rest := by
  show findallPagesF (c :: rest).length (c :: rest) = _
  rw [List.length_cons, findallPagesF_succ_none _ _ _ h]
  rfl

theorem findallPages_some (s : List Char) (n : ℕ) (after : List Char)
    (h : matchPageSep s = some (n, after)) :
    findallPages s = n :: findallPages after := by
  cases s with
  | nil => simp [matchPageSep, List.isPrefixOf] at h
  | cons c rest =>
    show findallPagesF (c :: rest).length (c :: rest) = _
    rw [List.length_cons, findallPagesF_succ_some _ _ _ _ _ h]
    have hl := matchPageSep_some_length _ _ _ h
    simp only [List.length_cons] at hl
    rw [findallPagesF_stable rest.length after.length after (by omega) (le_refl _)]
    rfl

theorem takeWhile_digits_append (ds : List Char) (hds : ∀ c ∈ ds, c.isDigit = true)
    (c : Char) (x : List Char) (hc : c.isDigit = false) :
    (ds ++ c :: x).takeWhile Char.isDigit = ds := by
  induction ds with
  | nil => simp [List.takeWhile_cons, hc]
  | cons d ds' ih =>
    have hd : d.isDigit = true := hds d (List.mem_cons_self d ds')
    rw [List.cons_append, List.takeWhile_cons, if_pos hd,
      ih (fun e he => hds e (List.mem_cons_of_mem _ he))]

theorem marker_not_prefixOf (t rest : List Char)
    (hm : ¬ ("--- Page ".toList <:+: t))
    (hb : rest = [] ∨ rest.head? = some '\n') :
    "--- Page ".toList.isPrefixOf (t ++ rest) = false := by
  cases hq : "--- Page ".toList.isPrefixOf (t ++ rest) with
  | false => rfl
  | true =>
    exfalso
    have htake := take_of_isPrefixOf _ _ hq
    have hlen9 : ("--- Page ".toList).length = 9 := rfl
    rw [hlen9, List.take_append_eq_append_take] at htake
    by_cases hlen : 9 ≤ t.length
    · have h0 : 9 - t.length = 0 := by omega
      rw [h0, List.take_zero, List.append_nil] at htake
      apply hm
      refine ⟨[], t.drop 9, ?_⟩
      rw [List.nil_append, ← htake, List.take_append_drop]
    · have htt : t.take 9 = t := List.take_of_length_le (by omega)
      rw [htt] at htake
      rcases hb with hb | hb
      · subst hb
        rw [List.take_nil, List.append_nil] at htake
        exact hm ⟨[], [], by rw [List.nil_append, List.append_nil, htake]⟩
      · obtain ⟨r', hr'⟩ : ∃ r', rest = '\n' :: r' := by
          cases rest with
          | nil => simp at hb
          | cons a b =>
            simp at hb
            exact ⟨b, by rw [hb]⟩
        subst hr'
        have hk : ∃ m, 9 - t.length = m + 1 := ⟨9 - t.length - 1, by omega⟩
        obtain ⟨m, hk⟩ := hk
        rw [hk, List.take_succ_cons] at htake
        have : '\n' ∈ "--- Page ".toList := by
          rw [← htake]
          simp
        simp at this

/-- Scanning a text that does not contain `"--- Page "` finds nothing in it:
any match would have to start inside the text, and it cannot spill over into
what follows when the continuation starts with a newline (no character of
`"--- Page "` is a newline). -/
theorem findall_skip (t : List Char) (rest : List Char)
    (hm : ¬ ("--- Page ".toList <:+: t))
    (hb : rest = [] ∨ rest.head? = some '\n') :
    findallPages (t ++ rest) = findallPages rest := by
  induction t with
  | nil => rw [List.nil_append]
  | cons c t' ih =>
    have hnp := marker_not_prefixOf (c :: t') rest hm hb
    rw [List.cons_append] at hnp
    have hmc : matchPageSep (c :: (t' ++ rest)) = none := by
      unfold matchPageSep
      rw [if_neg (by rw [hnp]; simp)]
    rw [List.cons_append, findallPages_cons_none _ _ hmc]
    exact ih (fun h => hm (List.infix_cons h))

/-- Instantiating the default separator template at page `n`. -/
theorem sepInstance_default (n : ℕ) :
    sepInstance DEFAULT_SEPARATOR n =
      "\n\n--- Page ".toList ++ natDigits n ++ " ---\n\n".toList := rfl

/-- The regex matches exactly the written separator at the head of the
string, capturing the page number and resuming after `" ---"`. -/
theorem matchPageSep_at (k : ℕ) (rest : List Char) :
    matchPageSep ("--- Page ".toList ++ (natDigits k ++ (" ---".toList ++ rest)))
      = some (k, rest) := by
  have h1 : "--- Page ".toList.isPrefixOf
      ("--- Page ".toList ++ (natDigits k ++ (" ---".toList ++ rest))) = true :=
    isPrefixOf_append_self _ _
  have hdrop9 : ("--- Page ".toList ++ (natDigits k ++ (" ---".toList ++ rest))).drop 9
      = natDigits k ++ (" ---".toList ++ rest) := by
    have hl9 : ("--- Page ".toList).length = 9 := rfl
    rw [← hl9]
    exact List.drop_left _ _
  have htw : (natDigits k ++ (" ---".toList ++ rest)).takeWhile Char.isDigit
      = natDigits k :=
    takeWhile_digits_append (natDigits k) (natDigits_all_digit k) ' '
      ("---".toList ++ rest) rfl
  have hne : (natDigits k).isEmpty = false := by
    cases hD : natDigits k with
    | nil => exact absurd hD (natDigits_ne_nil k)
    | cons a b => rfl
  have hdropD : (natDigits k ++ (" ---".toList ++ rest)).drop (natDigits k).length
      = " ---".toList ++ rest := List.drop_left _ _
  have h3 : " ---".toList.isPrefixOf (" ---".toList ++ rest) = true :=
    isPrefixOf_append_self _ _
  have hdrop4 : (" ---".toList ++ rest).drop 4 = rest := by
    have hl4 : (" ---".toList).length = 4 := rfl
    rw [← hl4]
    exact List.drop_left _ _
  unfold matchPageSep
  rw [if_pos h1]
  simp only [hdrop9, htw, hne, hdropD, h3, hdrop4, natOfDigits_natDigits,
    Bool.false_eq_true, if_false, if_pos]

/-- The tail of an assembled document scans to exactly the separator page
numbers `i, i+1, ...`, provided no page text contains `"--- Page "`. -/
theorem findall_tailA (ts : List (List Char)) :
    ∀ i : ℕ, (∀ t ∈ ts, ¬ ("--- Page ".toList <:+: t)) →
    findallPages (tailA DEFAULT_SEPARATOR i ts) = List.range' i ts.length := by
  induction ts with
  | nil => intro i _; rfl
  | cons t ts' ih =>
    intro i hall
    have hbnd : tailA DEFAULT_SEPARATOR (i + 1) ts' = [] ∨
        (tailA DEFAULT_SEPARATOR (i + 1) ts').head? = some '\n' := by
      cases ts' with
      | nil => exact Or.inl rfl
      | cons u us =>
        right
        show ((sepInstance DEFAULT_SEPARATOR (i + 1) ++ u) ++
          tailA DEFAULT_SEPARATOR (i + 1 + 1) us).head? = some '\n'
        rw [sepInstance_default]
        rfl
    have hstep : tailA DEFAULT_SEPARATOR i (t :: ts') =
        '\n' :: '\n' :: ("--- Page ".toList ++ (natDigits i ++ (" ---".toList ++
          ('\n' :: '\n' :: (t ++ tailA DEFAULT_SEPARATOR (i + 1) ts'))))) := by
      show (sepInstance DEFAULT_SEPARATOR i ++ t) ++ tailA DEFAULT_SEPARATOR (i + 1) ts' = _
      rw [sepInstance_default]
      have : " ---\n\n".toList = " ---".toList ++ ['\n', '\n'] := rfl
      rw [this]
      have h2 : "\n\n--- Page ".toList = '\n' :: '\n' :: "--- Page ".toList := rfl
      rw [h2]
      simp [List.append_assoc]
    rw [hstep]
    have hn1 : matchPageSep ('\n' :: ('\n' :: ("--- Page ".toList ++ (natDigits i ++
        (" ---".toList ++ ('\n' :: '\n' :: (t ++ tailA DEFAULT_SEPARATOR (i + 1) ts')))))))
        = none := by
      unfold matchPageSep
      rw [if_neg (by simp [List.isPrefixOf])]
    rw [findallPages_cons_none _ _ hn1]
    have hn2 : matchPageSep ('\n' :: ("--- Page ".toList ++ (natDigits i ++
        (" ---".toList ++ ('\n' :: '\n' :: (t ++ tailA DEFAULT_SEPARATOR (i + 1) ts'))))))
        = none := by
      unfold matchPageSep
      rw [if_neg (by simp [List.isPrefixOf])]
    rw [findallPages_cons_none _ _ hn2]
    rw [findallPages_some _ _ _ (matchPageSep_at i _)]
    have hn3 : matchPageSep ('\n' :: ('\n' :: (t ++ tailA DEFAULT_SEPARATOR (i + 1) ts')))
        = none := by
      unfold matchPageSep
      rw [if_neg (by simp [List.isPrefixOf])]
    rw [findallPages_cons_none _ _ hn3]
    have hn4 : matchPageSep ('\n' :: (t ++ tailA DEFAULT_SEPARATOR (i + 1) ts')) = none := by
      unfold matchPageSep
      rw [if_neg (by simp [List.isPrefixOf])]
    rw [findallPages_cons_none _ _ hn4]
    rw [findall_skip t _ (hall t (List.mem_cons_self t ts')) hbnd]
    rw [ih (i + 1) (fun x hx => hall x (List.mem_cons_of_mem _ hx))]
    rw [List.length_cons, List.range'_succ]

/-- C1: for every list of page texts, `join_pages` first strips
leading/trailing whitespace from each page and drops empty pages (an empty
or all-whitespace list yields the empty string), then folds left to right
applying at each boundary the first matching rule of the ordered chain
hyphen / ellipsis / sentence terminator (four newlines) / colon-semicolon /
default single space, exactly as `specJoinPages` words it; in particular
`join_pages ["End.", "Next"]` is `"End."` followed by four newlines
followed by `"Next"`. -/
theorem C1_join_pages_boundary_rules (page_texts : List (List Char)) :
    join_pages page_texts = specJoinPages page_texts ∧
    join_pages [] = [] ∧
    join_pages ["  ".toList] = [] ∧
    join_pages ["End.".toList, "Next".toList] = "End.\n\n\n\nNext".toList :=
  ⟨join_pages_eq_spec page_texts, rfl, by decide, by decide⟩

/-- C9 (counterexample): the claim fails for a page text that itself
contains a page-1 marker: `assemble` of the single page
`"--- Page 1 ---"` returns it unchanged, its output does contain the
`"--- Page 1 ---"` marker, and `get_completed_pages` of that output is
`{1}` — so a resume set computed from such a saved file would not
re-process page 1. -/
theorem C9_counterexample :
    get_completed_pages (assemble DEFAULT_SEPARATOR ["--- Page 1 ---".toList]) = {1} := by
  decide

/-- C9 (amended): for every list of `N ≥ 1` page texts none of which
contains the marker prefix `"--- Page "`, `assemble` inserts separators
only for pages `2..N` and never for page 1: the page numbers found in the
output are exactly `2, ..., N`, and `get_completed_pages` of the saved
output never contains page 1 — a resume set computed from such a file
always re-processes page 1. -/
theorem C9_assemble_never_page1 (t0 : List Char) (ts : List (List Char))
    (h : ∀ t ∈ t0 :: ts, ¬ ("--- Page ".toList <:+: t)) :
    findallPages (assemble DEFAULT_SEPARATOR (t0 :: ts)) = List.range' 2 ts.length ∧
    1 ∉ get_completed_pages (assemble DEFAULT_SEPARATOR (t0 :: ts)) := by
  have hmain : findallPages (assemble DEFAULT_SEPARATOR (t0 :: ts))
      = List.range' 2 ts.length := by
    cases ts with
    | nil =>
      show findallPages t0 = _
      rw [← List.append_nil t0,
        findall_skip t0 [] (h t0 (List.mem_cons_self t0 [])) (Or.inl rfl)]
      rfl
    | cons r rs =>
      rw [assemble_view]
      have hbnd : tailA DEFAULT_SEPARATOR 2 (r :: rs) = [] ∨
          (tailA DEFAULT_SEPARATOR 2 (r :: rs)).head? = some '\n' := by
        right
        show ((sepInstance DEFAULT_SEPARATOR 2 ++ r) ++
          tailA DEFAULT_SEPARATOR 3 rs).head? = some '\n'
        rw [sepInstance_default]
        rfl
      rw [findall_skip t0 _ (h t0 (List.mem_cons_self t0 _)) hbnd]
      rw [findall_tailA (r :: rs) 2 (fun x hx => h x (List.mem_cons_of_mem _ hx))]
  refine ⟨hmain, ?_⟩
  intro hmem
  rw [get_completed_pages, List.mem_toFinset, hmain, List.mem_range'] at hmem
  obtain ⟨i, _, hi⟩ := hmem
  omega

/-- Witness for C9 (amended) at a concrete two-page book. -/
theorem C9_assemble_never_page1_witness :
    findallPages (assemble DEFAULT_SEPARATOR ["Hello.".toList, "World".toList])
      = List.range' 2 1 ∧
    1 ∉ get_completed_pages (assemble DEFAULT_SEPARATOR ["Hello.".toList, "World".toList]) :=
  C9_assemble_never_page1 "Hello.".toList ["World".toList] (by decide)

/-! ## Page cache (src/core/page_cache.py) and resume set
(src/core/workflow_orchestrator.py)

The cache directory is modelled as an association list from file name to
file content. `Path.exists()` is lookup success; reading a file returns its
content. -/

/-- Python percent-03d formatting: zero-pad to (at least) three digits. -/
def pad3 (n : ℕ) : List Char :=
  if n < 10 then '0' :: '0' :: natDigits n
  else if n < 100 then '0' :: natDigits n
  else natDigits n

/-- The `page_image_path` naming (page_cache.py lines 22-24): `page_NNN.jpg`,
zero-padded to 3 digits. -/
def page_image_name (n : ℕ) : List Char := "page_".toList ++ pad3 n ++ ".jpg".toList

/-- The `page_text_path` naming (page_cache.py lines 27-29): `page_NNN.txt`,
zero-padded to 3 digits. -/
def page_text_name (n : ℕ) : List Char := "page_".toList ++ pad3 n ++ ".txt".toList

/-- A cache directory: a finite set of files, each a name with content. -/
structure FS where
  files : List (List Char × List Char)

/-- Python `Path.exists()` for a file of the cache directory. -/
def FS.exists_file (fs : FS) (name : List Char) : Bool :=
  fs.files.any (fun f => f.1 == name)

/-- Python `Path.read_text()`: the content of the file, when present. -/
def FS.read_file (fs : FS) (name : List Char) : Option (List Char) :=
  (fs.files.find? (fun f => f.1 == name)).map (fun f => f.2)

/-- The compiled pattern `^page_(\d{3})\.jpg$` (page_cache.py line 14):
a name of exactly the form `page_DDD.jpg`, with its page number. -/
def matchPageImage : List Char → Option ℕ
  | ['p', 'a', 'g', 'e', '_', d1, d2, d3, '.', 'j', 'p', 'g'] =>
      if d1.isDigit && d2.isDigit && d3.isDigit then
        some (100 * digitVal d1 + 10 * digitVal d2 + digitVal d3)
      else none
  | _ => none

/-- Lexicographic comparison of file names, as Python `sorted()` orders
strings (by code point). -/
def charListLe : List Char → List Char → Bool
  | [], _ => true
  | _ :: _, [] => false
  | a :: as, b :: bs => if a < b then true else if b < a then false else charListLe as bs

/-- Insert into a sorted list of names. -/
def insertLe (a : List Char) : List (List Char) → List (List Char)
  | [] => [a]
  | b :: bs => if charListLe a b then a :: b :: bs else b :: insertLe a bs

/-- Python `sorted()` over file names (stable insertion sort). -/
def sortNames (l : List (List Char)) : List (List Char) := l.foldr insertLe []

/-- Embedding of `list_cached_pages` (page_cache.py lines 60-69): the sorted directory
entries whose names match the page pattern (a missing directory is the
empty `FS`). -/
def list_cached_pages (fs : FS) : List (List Char) :=
  (sortNames (fs.files.map (fun f => f.1))).filter
    (fun name => (matchPageImage name).isSome)

/-- Embedding of `load_page_text` (page_cache.py lines 39-47): empty string when the
text file does not exist. -/
def load_page_text (fs : FS) (page_num : ℕ) : List Char :=
  match FS.read_file fs (page_text_name page_num) with
  | none => []
  | some t => t

/-- Embedding of `list_cached_page_texts` (page_cache.py lines 50-56): one text per
cached image, looked up at the sequential position
(`enumerate(page_images, start=1)`), not at the page number in the image
file's name. -/
def list_cached_page_texts (fs : FS) : List (List Char) :=
  ((list_cached_pages fs).enum).map (fun p => load_page_text fs (p.1 + 1))

/-- Embedding of `save_page_text` (page_cache.py lines 32-36): overwrite the page's text
artifact. -/
def save_page_text (fs : FS) (page_num : ℕ) (text : List Char) : FS :=
  ⟨(page_text_name page_num, text) ::
    fs.files.filter (fun f => !(f.1 == page_text_name page_num))⟩

/-- Modelled from the spec: `get_page_number` is imported from
`core.page_cache` by the orchestrator (workflow_orchestrator.py lines 133
and 168) but no definition exists under `src/`; per the spec's fixed naming
convention (`page_NNN.jpg` with a 3-digit page number, §3/§6) it parses the page
number out of a `page_NNN.jpg` file name, returning the `-1` sentinel its
callers test for when the name does not match. -/
def get_page_number (name : List Char) : Int :=
  match matchPageImage name with
  | some n => (n : Int)
  | none => -1

/-- Embedding of `WorkflowOrchestrator.calculate_resume_pages` (workflow_orchestrator.py
lines 157-188): for each cached page image take its page number (skipping
the `-1` sentinel) and add it to the set iff the corresponding text file
exists — existence only, the text's content is never read. The Python
`set` accumulation is rendered as `filterMap` followed by `toFinset`. -/
def calculate_resume_pages (fs : FS) : Finset ℕ :=
  ((list_cached_pages fs).filterMap (fun name =>
    let page_num := get_page_number name
    if page_num = -1 then none
    else if FS.exists_file fs (page_text_name page_num.toNat) then some page_num.toNat
    else none)).toFinset

theorem mem_insertLe (x a : List Char) : ∀ l : List (List Char),
    (x ∈ insertLe a l ↔ x = a ∨ x ∈ l) := by
  intro l
  induction l with
  | nil => simp [insertLe]
  | cons b bs ih =>
    by_cases h : charListLe a b = true
    · simp [insertLe, h]
    · simp only [insertLe, if_neg h, List.mem_cons, ih]
      tauto

theorem mem_sortNames (x : List Char) (l : List (List Char)) :
    x ∈ sortNames l ↔ x ∈ l := by
  induction l with
  | nil => simp [sortNames]
  | cons a as ih =>
    show x ∈ insertLe a (sortNames as) ↔ _
    rw [mem_insertLe, ih, List.mem_cons]

theorem digitVal_le_9 (c : Char) (h : c.isDigit = true) : digitVal c ≤ 9 := by
  have hb : 48 ≤ c.toNat ∧ c.toNat ≤ 57 := by
    simp [Char.isDigit] at h
    exact h
  unfold digitVal
  omega

theorem digitChar_digitVal (c : Char) (h : c.isDigit = true) :
    digitChar (digitVal c) = c := by
  have hb : 48 ≤ c.toNat ∧ c.toNat ≤ 57 := by
    simp [Char.isDigit] at h
    exact h
  have hofn : Char.ofNat c.toNat = c := Char.ofNat_toNat c
  have hv : c.toNat = 48 + digitVal c := by unfold digitVal; omega
  have hd9 : digitVal c ≤ 9 := by unfold digitVal; omega
  rw [← hofn, hv]
  interval_cases h : digitVal c <;> decide

theorem pad3_eq (n : ℕ) (h : n ≤ 999) :
    pad3 n = [digitChar (n / 100), digitChar (n / 10 % 10), digitChar (n % 10)] := by
  unfold pad3
  by_cases h10 : n < 10
  · rw [if_pos h10, natDigits_unfold, if_pos h10]
    have e1 : n / 100 = 0 := by omega
    have e2 : n / 10 % 10 = 0 := by omega
    have e3 : n % 10 = n := by omega
    rw [e1, e2, e3]
    rfl
  · by_cases h100 : n < 100
    · rw [if_neg h10, if_pos h100, natDigits_unfold, if_neg h10,
        natDigits_unfold, if_pos (by omega : n / 10 < 10)]
      have e1 : n / 100 = 0 := by omega
      have e2 : n / 10 % 10 = n / 10 := by omega
      rw [e1, e2]
      rfl
    · rw [if_neg h10, if_neg h100, natDigits_unfold, if_neg h10,
        natDigits_unfold, if_neg (by omega : ¬ n / 10 < 10),
        natDigits_unfold, if_pos (by omega : n / 10 / 10 < 10)]
      have e1 : n / 10 / 10 = n / 100 := by omega
      have e2 : n / 10 % 10 = n / 10 % 10 := rfl
      rw [e1]
      rfl

theorem matchPageImage_name (n : ℕ) (h : n ≤ 999) :
    matchPageImage (page_image_name n) = some n := by
  have hp := pad3_eq n h
  show matchPageImage ("page_".toList ++ pad3 n ++ ".jpg".toList) = some n
  rw [hp]
  show (if ((digitChar (n / 100)).isDigit && (digitChar (n / 10 % 10)).isDigit &&
      (digitChar (n % 10)).isDigit) = true then
    some (100 * digitVal (digitChar (n / 100)) + 10 * digitVal (digitChar (n / 10 % 10)) +
      digitVal (digitChar (n % 10)))
    else none) = some n
  rw [if_pos (by
    rw [isDigit_digitChar _ (by omega), isDigit_digitChar _ (by omega),
      isDigit_digitChar _ (by omega)]
    rfl)]
  rw [digitVal_digitChar _ (by omega), digitVal_digitChar _ (by omega),
    digitVal_digitChar _ (by omega)]
  congr 1
  omega

theorem matchPageImage_inv (name : List Char) (n : ℕ)
    (h : matchPageImage name = some n) :
    n ≤ 999 ∧ name = page_image_name n := by
  unfold matchPageImage at h
  split at h
  case h_2 => exact absurd h (by simp)
  case h_1 d1 d2 d3 =>
    split at h
    case isFalse => exact absurd h (by simp)
    case isTrue hdig =>
      simp only [Bool.and_eq_true] at hdig
      obtain ⟨⟨hd1, hd2⟩, hd3⟩ := hdig
      have hv1 := digitVal_le_9 d1 hd1
      have hv2 := digitVal_le_9 d2 hd2
      have hv3 := digitVal_le_9 d3 hd3
      have hn : 100 * digitVal d1 + 10 * digitVal d2 + digitVal d3 = n := by
        simpa using h
      have hle : n ≤ 999 := by omega
      refine ⟨hle, ?_⟩
      have e1 : n / 100 = digitVal d1 := by omega
      have e2 : n / 10 % 10 = digitVal d2 := by omega
      have e3 : n % 10 = digitVal d3 := by omega
      rw [page_image_name, pad3_eq n hle, e1, e2, e3,
        digitChar_digitVal d1 hd1, digitChar_digitVal d2 hd2, digitChar_digitVal d3 hd3]
      rfl

theorem exists_file_iff (fs : FS) (name : List Char) :
    FS.exists_file fs name = true ↔ name ∈ fs.files.map (fun f => f.1) := by
  unfold FS.exists_file
  rw [List.any_eq_true]
  constructor
  · rintro ⟨f, hf, hbeq⟩
    rw [beq_iff_eq] at hbeq
    exact List.mem_map.mpr ⟨f, hf, hbeq⟩
  · intro hm
    obtain ⟨f, hf, hfe⟩ := List.mem_map.mp hm
    exact ⟨f, hf, beq_iff_eq.mpr hfe⟩

theorem mem_list_cached_pages (fs : FS) (name : List Char) :
    name ∈ list_cached_pages fs ↔
      name ∈ fs.files.map (fun f => f.1) ∧ (matchPageImage name).isSome = true := by
  unfold list_cached_pages
  rw [List.mem_filter, mem_sortNames]

/-- C2 (amended): the resume set contains exactly the page numbers for which
both an image artifact and a text artifact *exist* — the text artifact's
content plays no role, so a page whose text file exists but is empty is in
the resume set. -/
theorem C2_resume_set_is_existence_only (fs : FS) (n : ℕ) :
    n ∈ calculate_resume_pages fs ↔
      n ≤ 999 ∧ FS.exists_file fs (page_image_name n) = true ∧
        FS.exists_file fs (page_text_name n) = true := by
  unfold calculate_resume_pages
  rw [List.mem_toFinset, List.mem_filterMap]
  constructor
  · rintro ⟨name, hmem, hf⟩
    rw [mem_list_cached_pages] at hmem
    obtain ⟨hmemN, hsome⟩ := hmem
    obtain ⟨m, hm⟩ := Option.isSome_iff_exists.mp hsome
    simp only [get_page_number, hm] at hf
    rw [if_neg (by omega : ¬ ((m : Int) = -1)), Int.toNat_natCast] at hf
    by_cases htxt : FS.exists_file fs (page_text_name m) = true
    · rw [if_pos htxt, Option.some_inj] at hf
      subst hf
      obtain ⟨hle, hname⟩ := matchPageImage_inv name m hm
      subst hname
      exact ⟨hle, (exists_file_iff fs _).mpr hmemN, htxt⟩
    · rw [if_neg htxt] at hf
      exact absurd hf (by simp)
  · rintro ⟨hle, himg, htxt⟩
    refine ⟨page_image_name n, ?_, ?_⟩
    · rw [mem_list_cached_pages]
      refine ⟨(exists_file_iff fs _).mp himg, ?_⟩
      rw [matchPageImage_name n hle]
      rfl
    · simp only [get_page_number, matchPageImage_name n hle]
      rw [if_neg (by omega : ¬ ((n : Int) = -1)), Int.toNat_natCast, if_pos htxt]

/-- A concrete cache directory with one page image and an *empty* page-1
text artifact. -/
def fsC2 : FS :=
  ⟨[("page_001.jpg".toList, "IMG".toList), ("page_001.txt".toList, [])]⟩

/-- C2 (counterexample): in `fsC2` page 1's text artifact exists but is
empty, yet page 1 *is* in the resume set — contradicting the claim that
only pages with a non-empty text artifact are in the resume set. -/
theorem C2_counterexample :
    1 ∈ calculate_resume_pages fsC2 ∧
    FS.read_file fsC2 (page_text_name 1) = some [] := by
  decide

/-- A concrete cache directory whose cached image pages are the
non-contiguous set of pages 2 and 3, with their texts present. -/
def fsC10 : FS :=
  ⟨[("page_002.jpg".toList, "I2".toList), ("page_003.jpg".toList, "I3".toList),
    ("page_002.txt".toList, "two".toList), ("page_003.txt".toList, "three".toList)]⟩

/-- C10: `list_cached_page_texts` returns one string per cached image, the
`i`-th being `load_page_text` for sequential page number `i + 1` — position
based, not name based. On the non-contiguous cache `fsC10` (images for
pages 2 and 3 only) it therefore returns the empty page-1 text and page 2's
text, not the texts belonging to the two listed images. -/
theorem C10_texts_by_position (fs : FS) :
    (list_cached_page_texts fs =
      (List.range (list_cached_pages fs).length).map (fun i => load_page_text fs (i + 1))) ∧
    list_cached_pages fsC10 = ["page_002.jpg".toList, "page_003.jpg".toList] ∧
    list_cached_page_texts fsC10 = [[], "two".toList] ∧
    list_cached_page_texts fsC10 ≠
      (list_cached_pages fsC10).map
        (fun name => load_page_text fsC10 (get_page_number name).toNat) := by
  refine ⟨?_, by decide, by decide, by decide⟩
  unfold list_cached_page_texts
  rw [show (fun p : ℕ × List Char => load_page_text fs (p.1 + 1)) =
    (fun i => load_page_text fs (i + 1)) ∘ Prod.fst from rfl]
  rw [← List.map_map, List.enum_map_fst]

/-! ## Image preprocessing (src/core/image_utils.py)

Python float arithmetic is modelled with real numbers; the chosen
counterexample values are far from any double-rounding boundary
(`7 * sqrt(5/7) ≈ 5.916`). -/

/-- Embedding of `calculate_scale_factor` (image_utils.py lines 14-21). -/
noncomputable def calculate_scale_factor (width height max_pixels : ℕ) : ℝ :=
  if width * height ≤ max_pixels then 1
  else Real.sqrt ((max_pixels : ℝ) / (width * height))

/-- The output dimensions of `resize_for_vlm` (image_utils.py lines 24-35):
the image is returned unchanged when `factor >= 1.0`, else resized to
`(max 1 (int (w * factor)), max 1 (int (h * factor)))`, where Python
`int()` truncates (floor, for these nonnegative values). -/
noncomputable def resize_for_vlm_dims (width height max_pixels : ℕ) : ℕ × ℕ :=
  let factor := calculate_scale_factor width height max_pixels
  if 1 ≤ factor then (width, height)
  else (max 1 ⌊(width : ℝ) * factor⌋₊, max 1 ⌊(height : ℝ) * factor⌋₊)

/-- The output dimensions exactly as claim C8 states them: each dimension
*rounded*, not truncated. -/
noncomputable def specResizeDims (width height max_pixels : ℕ) : ℕ × ℕ :=
  if width * height ≤ max_pixels then (width, height)
  else (max 1 (round ((width : ℝ) * calculate_scale_factor width height max_pixels)).toNat,
        max 1 (round ((height : ℝ) * calculate_scale_factor width height max_pixels)).toNat)

theorem scale_factor_lt_one (width height max_pixels : ℕ)
    (h : max_pixels < width * height) :
    calculate_scale_factor width height max_pixels < 1 := by
  unfold calculate_scale_factor
  rw [if_neg (by omega)]
  rw [Real.sqrt_lt' (by norm_num : (0:ℝ) < 1)]
  have hpos : (0:ℝ) < (width : ℝ) * height := by
    have : 0 < width * height := by omega
    exact_mod_cast this
  rw [one_pow, div_lt_one hpos]
  exact_mod_cast h

/-- C8 (amended): `calculate_scale_factor` never exceeds 1; when
`w*h ≤ maxPixels` the image is returned unchanged; otherwise, with
`factor = sqrt(maxPixels / (w*h))`, the output dimensions are exactly
`(max 1 ⌊w*factor⌋, max 1 ⌊h*factor⌋)` — each dimension *truncated*
(Python `int`), not rounded. -/
theorem C8_resize_dims_floor (width height max_pixels : ℕ) :
    calculate_scale_factor width height max_pixels ≤ 1 ∧
    (width * height ≤ max_pixels → resize_for_vlm_dims width height max_pixels
      = (width, height)) ∧
    (max_pixels < width * height → resize_for_vlm_dims width height max_pixels
      = (max 1 ⌊(width : ℝ) * Real.sqrt ((max_pixels : ℝ) / (width * height))⌋₊,
         max 1 ⌊(height : ℝ) * Real.sqrt ((max_pixels : ℝ) / (width * height))⌋₊)) := by
  refine ⟨?_, ?_, ?_⟩
  · by_cases h : width * height ≤ max_pixels
    · unfold calculate_scale_factor
      rw [if_pos h]
    · exact le_of_lt (scale_factor_lt_one _ _ _ (by omega))
  · intro h
    unfold resize_for_vlm_dims
    rw [if_pos (by unfold calculate_scale_factor; rw [if_pos h])]
  · intro h
    have hlt := scale_factor_lt_one width height max_pixels h
    unfold resize_for_vlm_dims
    rw [if_neg (by intro hc; linarith)]
    unfold calculate_scale_factor
    rw [if_neg (by omega)]

/-- Witness for C8 (amended): the unchanged branch at `2*2 <= 10` and the
downscale branch at `7*1 > 5`. -/
theorem C8_resize_dims_floor_witness :
    resize_for_vlm_dims 2 2 10 = (2, 2) ∧
    resize_for_vlm_dims 7 1 5
      = (max 1 ⌊((7:ℕ) : ℝ) * Real.sqrt (((5:ℕ) : ℝ) / (((7:ℕ) : ℝ) * ((1:ℕ) : ℝ)))⌋₊,
         max 1 ⌊((1:ℕ) : ℝ) * Real.sqrt (((5:ℕ) : ℝ) / (((7:ℕ) : ℝ) * ((1:ℕ) : ℝ)))⌋₊) :=
  ⟨(C8_resize_dims_floor 2 2 10).2.1 (by norm_num),
   (C8_resize_dims_floor 7 1 5).2.2 (by norm_num)⟩

theorem seven_sqrt : (7:ℝ) * Real.sqrt ((5:ℝ)/7) = Real.sqrt 35 := by
  have sqrt49 : Real.sqrt 49 = 7 := by
    rw [show (49:ℝ) = 7^2 by norm_num, Real.sqrt_sq (by norm_num : (0:ℝ) ≤ 7)]
  rw [show (35:ℝ) = 49 * (5/7) by norm_num,
    Real.sqrt_mul (by norm_num : (0:ℝ) ≤ 49), sqrt49]

/-- C8 (counterexample): at `w = 7, h = 1, maxPixels = 5` the code truncates
`7 * sqrt(5/7) = sqrt(35) ≈ 5.916` to width 5, while the claim's rounding
yields width 6 — the two disagree, so the dimensions are truncated, not
rounded. -/
theorem C8_counterexample :
    resize_for_vlm_dims 7 1 5 = (5, 1) ∧
    specResizeDims 7 1 5 = (6, 1) ∧
    ((5, 1) : ℕ × ℕ) ≠ (6, 1) := by
  have hfac : calculate_scale_factor 7 1 5 = Real.sqrt ((5:ℝ)/7) := by
    unfold calculate_scale_factor
    rw [if_neg (by norm_num)]
    norm_num
  have hlt1 : Real.sqrt ((5:ℝ)/7) < 1 := by
    rw [Real.sqrt_lt' (by norm_num : (0:ℝ) < 1)]
    norm_num
  have hfloor7 : ⌊(7:ℝ) * Real.sqrt ((5:ℝ)/7)⌋₊ = 5 := by
    rw [seven_sqrt, Nat.floor_eq_iff (Real.sqrt_nonneg _)]
    constructor
    · rw [show ((5:ℕ):ℝ) = 5 by norm_num, Real.le_sqrt' (by norm_num)]
      norm_num
    · rw [show ((5:ℕ):ℝ) + 1 = 6 by norm_num, Real.sqrt_lt' (by norm_num)]
      norm_num
  have hround7 : round ((7:ℝ) * Real.sqrt ((5:ℝ)/7)) = 6 := by
    rw [seven_sqrt, round_eq, Int.floor_eq_iff]
    constructor
    · push_cast
      have h : (11/2 : ℝ) ≤ Real.sqrt 35 := by
        rw [Real.le_sqrt' (by norm_num)]
        norm_num
      linarith
    · push_cast
      have h : Real.sqrt 35 < 6 := by
        rw [Real.sqrt_lt' (by norm_num)]
        norm_num
      linarith
  have hfloor1 : ⌊Real.sqrt ((5:ℝ)/7)⌋₊ = 0 := by
    rw [Nat.floor_eq_iff (Real.sqrt_nonneg _)]
    constructor
    · exact_mod_cast Real.sqrt_nonneg _
    · push_cast
      linarith
  have hround1 : round (Real.sqrt ((5:ℝ)/7)) = 1 := by
    rw [round_eq, Int.floor_eq_iff]
    constructor
    · push_cast
      have h : (1/2 : ℝ) ≤ Real.sqrt ((5:ℝ)/7) := by
        rw [Real.le_sqrt' (by norm_num)]
        norm_num
      linarith
    · push_cast
      linarith
  refine ⟨?_, ?_, by simp⟩
  · unfold resize_for_vlm_dims
    rw [hfac, if_neg (by intro hc; linarith)]
    simp only [Nat.cast_ofNat, Nat.cast_one, one_mul]
    rw [hfloor7, hfloor1]
    rfl
  · unfold specResizeDims
    rw [if_neg (by norm_num), hfac]
    simp only [Nat.cast_ofNat, Nat.cast_one, one_mul]
    rw [hround7, hround1]
    rfl

/-! ## VLM client (src/core/vlm_client.py) -/

/-- Scan for the first occurrence of `"</think>"`; when found, return the
remainder after it (the non-greedy `.*?` matches up to the *first* closing
tag). -/
def dropThroughClose : List Char → Option (List Char)
  | [] => none
  | c :: rest =>
      if "</think>".toList.isPrefixOf (c :: rest) then some (List.drop 8 (c :: rest))
      else dropThroughClose rest

/-- Python `re.sub` of the think-block pattern under `re.DOTALL` (the
pattern `_THINKING_PATTERN`, vlm_client.py line 15): scan left to right;
at a (case-sensitive) `<think>` with a later `</think>`, drop through the
closing tag and continue after it; otherwise keep the character. The
pattern has no `re.IGNORECASE` flag. Fuel-based for structural recursion. -/
def stripThinkF : ℕ → List Char → List Char
  | 0, s => s
  | _ + 1, [] => []
  | fuel + 1, c :: rest =>
      if "<think>".toList.isPrefixOf (c :: rest) then
        match dropThroughClose (List.drop 7 (c :: rest)) with
        | some rem => stripThinkF fuel rem
        | none => c :: stripThinkF fuel rest
      else c :: stripThinkF fuel rest

def stripThinkBlocks (s : List Char) : List Char := stripThinkF s.length s

/-- Embedding of `strip_thinking_tags` (vlm_client.py lines 18-20): substitute away the
think blocks, then Python-`.strip()` the result. -/
def strip_thinking_tags (s : List Char) : List Char := stripL (stripThinkBlocks s)

theorem dropThroughClose_length : ∀ (l r : List Char),
    dropThroughClose l = some r → r.length ≤ l.length := by
  intro l
  induction l with
  | nil => intro r h; simp [dropThroughClose] at h
  | cons c rest ih =>
    intro r h
    unfold dropThroughClose at h
    by_cases hp : "</think>".toList.isPrefixOf (c :: rest) = true
    · rw [if_pos hp, Option.some_inj] at h
      subst h
      simp [List.length_drop]
      omega
    · rw [if_neg hp] at h
      have := ih r h
      simp only [List.length_cons]
      omega

theorem stripThinkF_succ_open (f : ℕ) (c : Char) (rest rem : List Char)
    (hp : "<think>".toList.isPrefixOf (c :: rest) = true)
    (hd : dropThroughClose (List.drop 7 (c :: rest)) = some rem) :
    stripThinkF (f + 1) (c :: rest) = stripThinkF f rem := by
  simp only [stripThinkF, hp, if_true, hd]

theorem stripThinkF_succ_keep (f : ℕ) (c : Char) (rest : List Char)
    (h : "<think>".toList.isPrefixOf (c :: rest) = false ∨
      dropThroughClose (List.drop 7 (c :: rest)) = none) :
    stripThinkF (f + 1) (c :: rest) = c :: stripThinkF f rest := by
  rcases h with h | h
  · have hneg : ¬ ("<think>".toList.isPrefixOf (c :: rest) = true) := by
      rw [h]
      simp
    simp only [stripThinkF]
    rw [if_neg hneg]
  · by_cases hp : "<think>".toList.isPrefixOf (c :: rest) = true
    · simp only [stripThinkF, hp, if_true, h]
    · simp only [stripThinkF]
      rw [if_neg hp]

theorem stripThinkF_stable : ∀ f g : ℕ, ∀ s : List Char,
    s.length ≤ f → s.length ≤ g → stripThinkF f s = stripThinkF g s := by
  intro f
  induction f with
  | zero =>
    intro g s hf _
    have : s = [] := List.eq_nil_of_length_eq_zero (by omega)
    subst this
    cases g <;> rfl
  | succ f ih =>
    intro g s hf hg
    cases s with
    | nil => cases g <;> rfl
    | cons c rest =>
      cases g with
      | zero => simp at hg
      | succ g =>
        simp only [List.length_cons] at hf hg
        by_cases hp : "<think>".toList.isPrefixOf (c :: rest) = true
        · cases hd : dropThroughClose (List.drop 7 (c :: rest)) with
          | some rem =>
            rw [stripThinkF_succ_open f c rest rem hp hd,
              stripThinkF_succ_open g c rest rem hp hd]
            have hlen : rem.length ≤ rest.length := by
              have h1 := dropThroughClose_length _ _ hd
              have h2 : (List.drop 7 (c :: rest)).length ≤ rest.length := by
                simp [List.length_drop]
              omega
            exact ih g rem (by omega) (by omega)
          | none =>
            rw [stripThinkF_succ_keep f c rest (Or.inr hd),
              stripThinkF_succ_keep g c rest (Or.inr hd)]
            rw [ih g rest (by omega) (by omega)]
        · have hp' : "<think>".toList.isPrefixOf (c :: rest) = false := by
            cases hq : "<think>".toList.isPrefixOf (c :: rest)
            · rfl
            · exact absurd hq hp
          rw [stripThinkF_succ_keep f c rest (Or.inl hp'),
            stripThinkF_succ_keep g c rest (Or.inl hp')]
          rw [ih g rest (by omega) (by omega)]

theorem stripThinkBlocks_cons_open (c : Char) (rest rem : List Char)
    (hp : "<think>".toList.isPrefixOf (c :: rest) = true)
    (hd : dropThroughClose (List.drop 7 (c :: rest)) = some rem) :
    stripThinkBlocks (c :: rest) = stripThinkBlocks rem := by
  show stripThinkF (c :: rest).length (c :: rest) = _
  rw [List.length_cons, stripThinkF_succ_open _ _ _ _ hp hd]
  have hlen : rem.length ≤ rest.length := by
    have h1 := dropThroughClose_length _ _ hd
    have h2 : (List.drop 7 (c :: rest)).length ≤ rest.length := by
      simp [List.length_drop]
    omega
  exact stripThinkF_stable rest.length rem.length rem (by omega) (le_refl _)

theorem stripThinkBlocks_cons_keep (c : Char) (rest : List Char)
    (h : "<think>".toList.isPrefixOf (c :: rest) = false) :
    stripThinkBlocks (c :: rest) = c :: stripThinkBlocks rest := by
  show stripThinkF (c :: rest).length (c :: rest) = _
  rw [List.length_cons, stripThinkF_succ_keep _ _ _ (Or.inl h)]
  rfl

theorem isPrefixOf_cons_neq (a b : Char) (l r : List Char) (h : ¬ a = b) :
    (a :: l).isPrefixOf (b :: r) = false := by
  show ((a == b) && l.isPrefixOf r) = false
  rw [beq_eq_false_iff_ne.mpr h]
  rfl

/-- A text with no `<` character is copied unchanged by the scan: no match
can start inside it, and none can start at its boundary into the
continuation (a match starts with `<`). -/
theorem stripThink_skip (t : List Char) (rest : List Char) (h : '<' ∉ t) :
    stripThinkBlocks (t ++ rest) = t ++ stripThinkBlocks rest := by
  induction t with
  | nil => simp
  | cons c t' ih =>
    have hc : ¬ '<' = c := fun hq => h (by rw [hq]; exact List.mem_cons_self c t')
    rw [List.cons_append, stripThinkBlocks_cons_keep c (t' ++ rest)
      (isPrefixOf_cons_neq '<' c _ _ hc), ih (fun hm => h (List.mem_cons_of_mem _ hm))]
    rfl

theorem dropThroughClose_at (mid post : List Char) (h : '<' ∉ mid) :
    dropThroughClose (mid ++ ("</think>".toList ++ post)) = some post := by
  induction mid with
  | nil =>
    rw [List.nil_append]
    have hp : "</think>".toList.isPrefixOf ("</think>".toList ++ post) = true :=
      isPrefixOf_append_self _ _
    have hstep : dropThroughClose ("</think>".toList ++ post)
        = some (List.drop 8 ("</think>".toList ++ post)) := by
      show (if "</think>".toList.isPrefixOf ("</think>".toList ++ post) = true
        then some (List.drop 8 ("</think>".toList ++ post))
        else dropThroughClose ("/think>".toList ++ post)) = _
      rw [if_pos hp]
    rw [hstep]
    congr 1
  | cons m mid' ih =>
    have hm : ¬ '<' = m := fun hq => h (by rw [hq]; exact List.mem_cons_self m mid')
    rw [List.cons_append]
    unfold dropThroughClose
    rw [if_neg (by
      rw [show ("</think>".toList) = '<' :: "/think>".toList from rfl,
        isPrefixOf_cons_neq '<' m _ _ hm]
      simp)]
    exact ih (fun hmm => h (List.mem_cons_of_mem _ hmm))

theorem stripThink_block (mid post : List Char) (h : '<' ∉ mid) :
    stripThinkBlocks ("<think>".toList ++ (mid ++ ("</think>".toList ++ post)))
      = stripThinkBlocks post := by
  have hp : "<think>".toList.isPrefixOf
      ("<think>".toList ++ (mid ++ ("</think>".toList ++ post))) = true :=
    isPrefixOf_append_self _ _
  have hdrop : List.drop 7 ("<think>".toList ++ (mid ++ ("</think>".toList ++ post)))
      = mid ++ ("</think>".toList ++ post) := by
    have hl7 : ("<think>".toList).length = 7 := rfl
    rw [← hl7]
    exact List.drop_left _ _
  have hd : dropThroughClose (List.drop 7
      ("<think>".toList ++ (mid ++ ("</think>".toList ++ post)))) = some post := by
    rw [hdrop]
    exact dropThroughClose_at mid post h
  show stripThinkBlocks ('<' :: ("think>".toList ++ (mid ++ ("</think>".toList ++ post))))
    = stripThinkBlocks post
  exact stripThinkBlocks_cons_open _ _ _ hp hd

/-- The client's typed exceptions (vlm_client.py lines 26-39): `VLMError`
base class with `VLMAuthError` (401/403), `VLMModelNotFoundError` (404) and
`VLMTimeoutError` subclasses; every other failure the client raises —
connection failure, HTTP >= 500, other 4xx, protocol/parse errors, and the
final retries-exhausted wrapper — is a plain `VLMError`, here `generic`. -/
inductive VLMExc
  | auth (msg : List Char)
  | notFound (msg : List Char)
  | timeout (msg : List Char)
  | generic (msg : List Char)
deriving DecidableEq

/-- Python `str(exc)`: the exception's message. -/
def VLMExc.message : VLMExc → List Char
  | .auth m => m
  | .notFound m => m
  | .timeout m => m
  | .generic m => m

/-- One HTTP attempt's outcome as the client observes it: a network
timeout, a connection failure, or a response carrying an HTTP status, a
body text, and — when `choices[0].message.content` parses — that content
field. -/
inductive HttpOutcome
  | timeout
  | connError (msg : List Char)
  | response (status : ℕ) (body : List Char) (content : Option (List Char))
deriving DecidableEq

/-- Embedding of `MAX_RETRIES` (vlm_client.py line 13). -/
def MAX_RETRIES : ℕ := 1

/-- Embedding of `VLMClient._should_retry` (vlm_client.py lines 221-224). -/
def _should_retry (attempt : ℕ) : Bool := attempt < MAX_RETRIES

/-- Embedding of `VLMClient._check_status` (vlm_client.py lines 197-209). -/
def _check_status (status : ℕ) (body : List Char) : Option VLMExc :=
  if status = 401 ∨ status = 403 then
    some (.auth ("Authentication failed (HTTP ".toList ++ natDigits status ++ ")".toList))
  else if status = 404 then
    some (.notFound "Model or endpoint not found (HTTP 404)".toList)
  else if 500 ≤ status then
    some (.generic ("Server error (HTTP ".toList ++ natDigits status ++ "): ".toList
      ++ body.take 200))
  else if 400 ≤ status then
    some (.generic ("Client error (HTTP ".toList ++ natDigits status ++ "): ".toList
      ++ body.take 200))
  else none

/-- One try of the loop body: `_send_request` (vlm_client.py lines 172-195,
mapping timeout and connection failures to exceptions and checking the
status) followed by `_extract_text` (lines 211-219, protocol errors for a
missing content field, `strip_thinking_tags` on success). -/
def attemptOnce (o : HttpOutcome) : Except VLMExc (List Char) :=
  match o with
  | .timeout => .error (.timeout "Request timed out".toList)
  | .connError m => .error (.generic ("Connection failed: ".toList ++ m))
  | .response status body content =>
      match _check_status status body with
      | some e => .error e
      | none =>
          match content with
          | some c => .ok (strip_thinking_tags c)
          | none => .error (.generic "Unexpected response format".toList)

/-- The final retries-exhausted raise (vlm_client.py line 117): a plain
`VLMError` whose message is the wrap prefix followed by the last
underlying error's message. -/
def wrapFailure (lastError : Option VLMExc) : VLMExc :=
  .generic ("VLM request failed after 2 attempts: ".toList ++
    (match lastError with
     | some e => e.message
     | none => "None".toList))

/-- The retry loop of `process_image` (vlm_client.py lines 94-117), the
HTTP outcome of each attempt supplied by an oracle. Auth and NotFound
re-raise immediately; a timeout or any other `VLMError` is recorded and
retried while `_should_retry`; the backoff sleep has no observable effect
here. Returns the result together with the number of HTTP attempts made. -/
def processImageGo (oracle : ℕ → HttpOutcome) :
    ℕ → ℕ → Option VLMExc → Except VLMExc (List Char) × ℕ
  | 0, attempt, lastError => (.error (wrapFailure lastError), attempt)
  | fuel + 1, attempt, _lastError =>
      match attemptOnce (oracle attempt) with
      | .ok t => (.ok t, attempt + 1)
      | .error e =>
          match e with
          | .auth m => (.error (.auth m), attempt + 1)
          | .notFound m => (.error (.notFound m), attempt + 1)
          | .timeout m =>
              if _should_retry attempt then
                processImageGo oracle fuel (attempt + 1) (some (.timeout m))
              else (.error (wrapFailure (some (.timeout m))), attempt + 1)
          | .generic m =>
              if _should_retry attempt then
                processImageGo oracle fuel (attempt + 1) (some (.generic m))
              else (.error (wrapFailure (some (.generic m))), attempt + 1)

/-- Embedding of `process_image` (vlm_client.py lines 70-117): run the loop over
`range(1 + MAX_RETRIES)` starting with no recorded error. -/
def process_image (oracle : ℕ → HttpOutcome) : Except VLMExc (List Char) × ℕ :=
  processImageGo oracle (1 + MAX_RETRIES) 0 none

/-- C7 (counterexample): the pattern is compiled without `re.IGNORECASE`,
so an upper-case `<THINK>...</THINK>` block is *not* stripped: the claim's
case-insensitive matching fails on this input. -/
theorem C7_counterexample :
    strip_thinking_tags "<THINK>\nx</THINK>ok".toList = "<THINK>\nx</THINK>ok".toList ∧
    "<THINK>\nx</THINK>ok".toList ≠ "ok".toList := by
  constructor
  · decide
  · decide

/-- C7 (amended): `strip_thinking_tags` removes every *lower-case*
`<think>...</think>` block — matching is case-sensitive, not
case-insensitive — with the block spanning newlines (DOTALL), and then
strips surrounding whitespace; an upper-case block is left in place. -/
theorem C7_strip_thinking_case_sensitive (pre mid post : List Char)
    (hpre : '<' ∉ pre) (hmid : '<' ∉ mid) :
    stripThinkBlocks (pre ++ ("<think>".toList ++ (mid ++ ("</think>".toList ++ post))))
      = pre ++ stripThinkBlocks post ∧
    strip_thinking_tags "a<think>reason\nwhy</think> b".toList = "a b".toList ∧
    strip_thinking_tags "<THINK>\nx</THINK>ok".toList = "<THINK>\nx</THINK>ok".toList := by
  refine ⟨?_, by decide, by decide⟩
  rw [stripThink_skip pre _ hpre, stripThink_block mid post hmid]

/-- Witness for C7 (amended) at a concrete newline-spanning block. -/
theorem C7_strip_thinking_case_sensitive_witness :
    stripThinkBlocks ("Out ".toList ++
        ("<think>".toList ++ ("a\nb".toList ++ ("</think>".toList ++ " tail".toList))))
      = "Out ".toList ++ stripThinkBlocks " tail".toList ∧
    strip_thinking_tags "a<think>reason\nwhy</think> b".toList = "a b".toList ∧
    strip_thinking_tags "<THINK>\nx</THINK>ok".toList = "<THINK>\nx</THINK>ok".toList :=
  C7_strip_thinking_case_sensitive "Out ".toList "a\nb".toList " tail".toList
    (by decide) (by decide)

/-- C5 (counterexample): an HTTP 400 "other 4xx" client error and a
protocol error (missing content field) are both retried — two HTTP
attempts each — where the claim says they fail immediately after exactly
one attempt. -/
theorem C5_counterexample :
    (process_image (fun _ => .response 400 "bad request".toList none)).2 = 2 ∧
    (process_image (fun _ => .response 200 [] none)).2 = 2 := by
  constructor
  · rfl
  · rfl

/-- C5 (amended): `process_image` performs at most one retry (two total
HTTP attempts). Auth (401/403) and not-found (404) errors fail immediately
after exactly one attempt; *every other* error — timeout, connection
failure, HTTP >= 500, other 4xx client errors, and protocol errors — is
retried once; after retries are exhausted a generic wrapping error
carrying the last underlying cause is raised. In particular a 401 yields
exactly one request and a timeout exactly two. -/
theorem C5_retry_policy (oracle : ℕ → HttpOutcome) :
    (∀ s body content, (s = 401 ∨ s = 403) → oracle 0 = .response s body content →
      process_image oracle = (.error (.auth ("Authentication failed (HTTP ".toList
        ++ natDigits s ++ ")".toList)), 1)) ∧
    (∀ body content, oracle 0 = .response 404 body content →
      process_image oracle =
        (.error (.notFound "Model or endpoint not found (HTTP 404)".toList), 1)) ∧
    (oracle 0 = .timeout → oracle 1 = .timeout →
      process_image oracle =
        (.error (wrapFailure (some (.timeout "Request timed out".toList))), 2)) ∧
    (∀ e t, attemptOnce (oracle 0) = .error e → (∀ m, e ≠ .auth m) →
      (∀ m, e ≠ .notFound m) → attemptOnce (oracle 1) = .ok t →
      process_image oracle = (.ok t, 2)) ∧
    (∀ t, attemptOnce (oracle 0) = .ok t → process_image oracle = (.ok t, 1)) := by
  refine ⟨?_, ?_, ?_, ?_, ?_⟩
  · intro s body content hs h0
    rcases hs with rfl | rfl <;>
      simp [process_image, processImageGo, attemptOnce, _check_status, h0, MAX_RETRIES]
  · intro body content h0
    simp [process_image, processImageGo, attemptOnce, _check_status, h0, MAX_RETRIES]
  · intro h0 h1
    simp [process_image, processImageGo, attemptOnce, h0, h1, _should_retry, MAX_RETRIES]
  · intro e t h0 hauth hnf h1
    cases e with
    | auth m => exact absurd rfl (hauth m)
    | notFound m => exact absurd rfl (hnf m)
    | timeout m =>
      simp [process_image, processImageGo, h0, h1, _should_retry, MAX_RETRIES]
    | generic m =>
      simp [process_image, processImageGo, h0, h1, _should_retry, MAX_RETRIES]
  · intro t h0
    simp [process_image, processImageGo, h0, MAX_RETRIES]

/-- Witness for C5 (amended): a 401 oracle takes the auth branch, a
timeout-then-success oracle the retry branch. -/
theorem C5_retry_policy_witness :
    process_image (fun _ => .response 401 "no".toList none)
      = (.error (.auth ("Authentication failed (HTTP ".toList
          ++ natDigits 401 ++ ")".toList)), 1) ∧
    process_image (fun n => if n = 0 then .timeout
        else .response 200 [] (some "text".toList))
      = (.ok (strip_thinking_tags "text".toList), 2) :=
  ⟨(C5_retry_policy (fun _ => .response 401 "no".toList none)).1 401 "no".toList none
      (Or.inl rfl) rfl,
   (C5_retry_policy (fun n => if n = 0 then .timeout
        else .response 200 [] (some "text".toList))).2.2.2.1
      (.timeout "Request timed out".toList) (strip_thinking_tags "text".toList)
      rfl (by intro m h; cases h) (by intro m h; cases h) rfl⟩

/-! ## OCR worker (src/gui/workers.py) and main-window page handlers
(src/gui/main_window.py) -/

/-- The per-page Qt signals `OCRWorker` emits (workers.py lines 85-88). -/
inductive OCREvent
  | pageStarted (page total : ℕ)
  | pageCompleted (page total : ℕ) (text : List Char)
  | pageError (page : ℕ) (msg : List Char)
deriving DecidableEq

/-- The loop of `OCRWorker._process_pages` (workers.py lines 145-168):
for each 0-based index `idx` (page number `idx + 1`), poll the
cancellation flag and break when set; emit "page started"; if the page is
in the skip set emit "page completed" with the empty placeholder text and
continue; otherwise emit "page completed" with the VLM text or
"page error" with the exception's message (the per-page outcome of
`_ocr_single_page` is an oracle). -/
def processPagesGo (total : ℕ) (skip_pages : Finset ℕ)
    (vlm : ℕ → Except VLMExc (List Char)) (cancelled : ℕ → Bool) :
    ℕ → List (List Char) → List OCREvent
  | _, [] => []
  | idx, _ :: restPaths =>
      if cancelled idx then []
      else
        OCREvent.pageStarted (idx + 1) total ::
        (if idx + 1 ∈ skip_pages then
          OCREvent.pageCompleted (idx + 1) total [] ::
            processPagesGo total skip_pages vlm cancelled (idx + 1) restPaths
        else
          match vlm idx with
          | .ok text => OCREvent.pageCompleted (idx + 1) total text ::
              processPagesGo total skip_pages vlm cancelled (idx + 1) restPaths
          | .error exc => OCREvent.pageError (idx + 1) (VLMExc.message exc) ::
              processPagesGo total skip_pages vlm cancelled (idx + 1) restPaths)

/-- Embedding of `OCRWorker._process_pages` over a cache directory: the loop body
contains no cache write (no call to `save_page_text` exists anywhere in
the OCR flow), so the cache directory passes through unchanged; the only
cache access is the image read inside `_ocr_single_page`, absorbed into
the per-page oracle. Returns the unchanged cache and the emitted events. -/
def _process_pages (fs : FS) (page_paths : List (List Char)) (skip_pages : Finset ℕ)
    (vlm : ℕ → Except VLMExc (List Char)) (cancelled : ℕ → Bool) :
    FS × List OCREvent :=
  (fs, processPagesGo page_paths.length skip_pages vlm cancelled 0 page_paths)

/-- Embedding of `MainWindow._ensure_page_slots` (main_window.py lines 548-551): extend
`_page_texts` with empty strings up to `page_num` slots. -/
def _ensure_page_slots (page_texts : List (List Char)) (page_num : ℕ) :
    List (List Char) :=
  page_texts ++ List.replicate (page_num - page_texts.length) []

/-- Embedding of `MainWindow._on_page_completed` (main_window.py lines 358-366), UI and
incremental-save side effects aside: store the text at slot `page_num-1`. -/
def _on_page_completed (page_texts : List (List Char)) (page_num : ℕ)
    (text : List Char) : List (List Char) :=
  (_ensure_page_slots page_texts page_num).set (page_num - 1) text

/-- Embedding of `MainWindow._on_page_error` (main_window.py lines 368-372): store the
error marker (ERROR prefix plus the message) at slot `page_num-1` —
in memory only. -/
def _on_page_error (page_texts : List (List Char)) (page_num : ℕ)
    (error_msg : List Char) : List (List Char) :=
  (_ensure_page_slots page_texts page_num).set (page_num - 1)
    ("[ERROR: ".toList ++ error_msg ++ "]".toList)

/-- Dispatch one worker event to the main window's connected handler. -/
def applyEvent (page_texts : List (List Char)) : OCREvent → List (List Char)
  | .pageStarted _ _ => page_texts
  | .pageCompleted p _ t => _on_page_completed page_texts p t
  | .pageError p m => _on_page_error page_texts p m

/-- The `_page_texts` list after a run: the window clears it before
starting OCR (main_window.py line 318) and folds the events through the
handlers. -/
def runPageTexts (events : List OCREvent) : List (List Char) :=
  events.foldl applyEvent []

/-- What ends up recorded for page index `idx` after an uncancelled run:
the empty placeholder for skipped pages, the VLM text on success, the
error marker on failure. -/
def pageOutcomeText (skip_pages : Finset ℕ) (vlm : ℕ → Except VLMExc (List Char))
    (idx : ℕ) : List Char :=
  if idx + 1 ∈ skip_pages then []
  else
    match vlm idx with
    | .ok t => t
    | .error e => "[ERROR: ".toList ++ VLMExc.message e ++ "]".toList

/-- The event block an uncancelled run emits for page index `idx`. -/
def pageEvents (total : ℕ) (skip_pages : Finset ℕ)
    (vlm : ℕ → Except VLMExc (List Char)) (idx : ℕ) : List OCREvent :=
  OCREvent.pageStarted (idx + 1) total ::
  (if idx + 1 ∈ skip_pages then [OCREvent.pageCompleted (idx + 1) total []]
   else
     match vlm idx with
     | .ok t => [OCREvent.pageCompleted (idx + 1) total t]
     | .error e => [OCREvent.pageError (idx + 1) (VLMExc.message e)])

theorem set_append_at_length (a : List (List Char)) (x v : List Char) :
    (a ++ [x]).set a.length v = a ++ [v] := by
  induction a with
  | nil => rfl
  | cons c a' ih =>
    rw [List.cons_append, List.length_cons, List.set_cons_succ, ih, List.cons_append]

theorem ensure_slots_succ (acc : List (List Char)) :
    _ensure_page_slots acc (acc.length + 1) = acc ++ [[]] := by
  unfold _ensure_page_slots
  rw [show acc.length + 1 - acc.length = 1 from by omega]
  rfl

theorem on_page_completed_append (acc : List (List Char)) (t : List Char) :
    _on_page_completed acc (acc.length + 1) t = acc ++ [t] := by
  unfold _on_page_completed
  rw [ensure_slots_succ, show acc.length + 1 - 1 = acc.length from by omega,
    set_append_at_length]

theorem on_page_error_append (acc : List (List Char)) (m : List Char) :
    _on_page_error acc (acc.length + 1) m
      = acc ++ ["[ERROR: ".toList ++ m ++ "]".toList] := by
  unfold _on_page_error
  rw [ensure_slots_succ, show acc.length + 1 - 1 = acc.length from by omega,
    set_append_at_length]

theorem processPagesGo_eq (total : ℕ) (skip_pages : Finset ℕ)
    (vlm : ℕ → Except VLMExc (List Char)) :
    ∀ (paths : List (List Char)) (idx : ℕ),
    processPagesGo total skip_pages vlm (fun _ => false) idx paths
      = (List.range paths.length).flatMap
          (fun j => pageEvents total skip_pages vlm (idx + j)) := by
  intro paths
  induction paths with
  | nil => intro idx; rfl
  | cons p ps ih =>
    intro idx
    have hrec := ih (idx + 1)
    have hfun : (fun j => pageEvents total skip_pages vlm (idx + Nat.succ j))
        = (fun j => pageEvents total skip_pages vlm (idx + 1 + j)) := by
      funext j
      congr 1
      omega
    rw [List.length_cons, List.range_succ_eq_map, List.flatMap_cons, List.flatMap_map]
    simp only [Nat.add_zero, hfun, ← hrec]
    show processPagesGo total skip_pages vlm (fun _ => false) idx (p :: ps) = _
    simp only [processPagesGo, Bool.false_eq_true, if_false, pageEvents]
    by_cases hskip : idx + 1 ∈ skip_pages
    · simp [hskip]
    · rw [if_neg hskip, if_neg hskip]
      cases hv : vlm idx with
      | ok t => simp
      | error e => simp

theorem runPageTexts_go (total : ℕ) (skip_pages : Finset ℕ)
    (vlm : ℕ → Except VLMExc (List Char)) :
    ∀ (paths : List (List Char)) (idx : ℕ) (acc : List (List Char)),
    acc.length = idx →
    (processPagesGo total skip_pages vlm (fun _ => false) idx paths).foldl applyEvent acc
      = acc ++ (List.range paths.length).map
          (fun j => pageOutcomeText skip_pages vlm (idx + j)) := by
  intro paths
  induction paths with
  | nil => intro idx acc _; simp [processPagesGo]
  | cons p ps ih =>
    intro idx acc hacc
    subst hacc
    have hfun : ((fun j => pageOutcomeText skip_pages vlm (acc.length + j)) ∘ Nat.succ)
        = (fun j => pageOutcomeText skip_pages vlm (acc.length + 1 + j)) := by
      funext j
      show pageOutcomeText skip_pages vlm (acc.length + (j + 1)) = _
      congr 1
      omega
    rw [List.length_cons, List.range_succ_eq_map, List.map_cons, List.map_map,
      Nat.add_zero, hfun]
    simp only [processPagesGo, Bool.false_eq_true, if_false]
    by_cases hskip : acc.length + 1 ∈ skip_pages
    · rw [if_pos hskip, List.foldl_cons, List.foldl_cons]
      show (processPagesGo total skip_pages vlm (fun _ => false) (acc.length + 1) ps).foldl
        applyEvent (_on_page_completed acc (acc.length + 1) []) = _
      rw [on_page_completed_append, ih (acc.length + 1) _ (by simp)]
      have hout : pageOutcomeText skip_pages vlm acc.length = [] := by
        unfold pageOutcomeText
        rw [if_pos hskip]
      rw [hout, List.append_assoc]
      rfl
    · rw [if_neg hskip]
      cases hv : vlm acc.length with
      | ok t =>
        rw [List.foldl_cons, List.foldl_cons]
        show (processPagesGo total skip_pages vlm (fun _ => false) (acc.length + 1) ps).foldl
          applyEvent (_on_page_completed acc (acc.length + 1) t) = _
        rw [on_page_completed_append, ih (acc.length + 1) _ (by simp)]
        have hout : pageOutcomeText skip_pages vlm acc.length = t := by
          unfold pageOutcomeText
          rw [if_neg hskip, hv]
        rw [hout, List.append_assoc]
        rfl
      | error e =>
        rw [List.foldl_cons, List.foldl_cons]
        show (processPagesGo total skip_pages vlm (fun _ => false) (acc.length + 1) ps).foldl
          applyEvent (_on_page_error acc (acc.length + 1) (VLMExc.message e)) = _
        rw [on_page_error_append, ih (acc.length + 1) _ (by simp)]
        have hout : pageOutcomeText skip_pages vlm acc.length
            = "[ERROR: ".toList ++ VLMExc.message e ++ "]".toList := by
          unfold pageOutcomeText
          rw [if_neg hskip, hv]
        rw [hout, List.append_assoc]
        rfl

/-- C3 (amended): during an uncancelled OCR run every attempted page's
outcome is recorded in the main window's in-memory `_page_texts` list —
the VLM text on success, the `[ERROR: msg]` marker on error, the empty
placeholder on skip — and the cache directory passes through unchanged:
the OCR loop writes no page text artifact (`save_page_text` has no caller
in the OCR flow). -/
theorem C3_outcomes_in_memory_not_cache (fs : FS) (paths : List (List Char))
    (skip_pages : Finset ℕ) (vlm : ℕ → Except VLMExc (List Char)) :
    (_process_pages fs paths skip_pages vlm (fun _ => false)).1 = fs ∧
    runPageTexts (_process_pages fs paths skip_pages vlm (fun _ => false)).2
      = (List.range paths.length).map (pageOutcomeText skip_pages vlm) := by
  refine ⟨rfl, ?_⟩
  show (processPagesGo paths.length skip_pages vlm (fun _ => false) 0 paths).foldl
    applyEvent [] = _
  rw [runPageTexts_go paths.length skip_pages vlm paths 0 [] rfl]
  simp

/-- A one-page cache directory holding only the page image, no text
artifact. -/
def fsC3 : FS := ⟨[("page_001.jpg".toList, "I1".toList)]⟩

/-- C3 (counterexample): a run whose single page fails in the VLM leaves
the cache directory without any `page_001.txt` artifact — the error marker
exists only in the in-memory page list, not as the page's text artifact in
the cache directory as the claim states. -/
theorem C3_counterexample :
    _process_pages fsC3 ["page_001.jpg".toList] ∅
        (fun _ => .error (.generic "boom".toList)) (fun _ => false)
      = (fsC3, [.pageStarted 1 1, .pageError 1 "boom".toList]) ∧
    FS.exists_file fsC3 (page_text_name 1) = false ∧
    runPageTexts [.pageStarted 1 1, .pageError 1 "boom".toList]
      = ["[ERROR: boom]".toList] := by
  refine ⟨rfl, by decide, by decide⟩

/-- C4 (amended): no VLM error stops the run: every page — auth and
not-found errors included — contributes its full event block (started,
then completed or per-page error), and the loop raises nothing to its
caller; errors are recorded per page only. -/
theorem C4_errors_never_stop_run (fs : FS) (paths : List (List Char))
    (skip_pages : Finset ℕ) (vlm : ℕ → Except VLMExc (List Char)) :
    (_process_pages fs paths skip_pages vlm (fun _ => false)).2
      = (List.range paths.length).flatMap (pageEvents paths.length skip_pages vlm) := by
  show processPagesGo paths.length skip_pages vlm (fun _ => false) 0 paths = _
  rw [processPagesGo_eq paths.length skip_pages vlm paths 0]
  simp

/-- A two-page cache directory. -/
def fsC4 : FS :=
  ⟨[("page_001.jpg".toList, "I1".toList), ("page_002.jpg".toList, "I2".toList)]⟩

/-- C4 (counterexample): with the VLM failing 401-auth on every page, the
run does *not* stop after page 1: page 2 is still started and attempted,
and the auth error is emitted as page 1's (and page 2's) per-page error
event rather than aborting the run. -/
theorem C4_counterexample :
    (_process_pages fsC4 ["page_001.jpg".toList, "page_002.jpg".toList] ∅
        (fun _ => .error (.auth "Authentication failed (HTTP 401)".toList))
        (fun _ => false)).2
      = [.pageStarted 1 2, .pageError 1 "Authentication failed (HTTP 401)".toList,
         .pageStarted 2 2, .pageError 2 "Authentication failed (HTTP 401)".toList] := by
  rfl

/-- C6 (amended): for every page in the resume/skip set the worker writes
nothing and emits its "page completed" event with the *empty placeholder*
text — not the page's cached text. -/
theorem C6_skip_emits_empty_placeholder (fs : FS) (paths : List (List Char))
    (skip_pages : Finset ℕ) (vlm : ℕ → Except VLMExc (List Char)) (idx : ℕ)
    (hlt : idx < paths.length) (hskip : idx + 1 ∈ skip_pages) :
    OCREvent.pageCompleted (idx + 1) paths.length []
      ∈ (_process_pages fs paths skip_pages vlm (fun _ => false)).2 := by
  show OCREvent.pageCompleted (idx + 1) paths.length []
    ∈ processPagesGo paths.length skip_pages vlm (fun _ => false) 0 paths
  rw [processPagesGo_eq paths.length skip_pages vlm paths 0]
  rw [List.mem_flatMap]
  refine ⟨idx, List.mem_range.mpr hlt, ?_⟩
  unfold pageEvents
  rw [Nat.zero_add, if_pos hskip]
  simp

/-- Witness for C6 (amended) at a concrete one-page skip. -/
theorem C6_skip_emits_empty_placeholder_witness :
    OCREvent.pageCompleted 1 1 []
      ∈ (_process_pages fsC3 ["page_001.jpg".toList] {1}
          (fun _ => .ok "fresh".toList) (fun _ => false)).2 :=
  C6_skip_emits_empty_placeholder fsC3 ["page_001.jpg".toList] {1}
    (fun _ => .ok "fresh".toList) 0 (by decide) (by decide)

/-- A one-page cache directory whose page-1 text artifact is "hello". -/
def fsC6 : FS :=
  ⟨[("page_001.jpg".toList, "I1".toList), ("page_001.txt".toList, "hello".toList)]⟩

/-- C6 (counterexample): page 1 is in the skip set and its cached text is
"hello", yet the worker's "page completed" event carries the empty string,
not the existing cached text — the claim that skipped pages' events carry
the cached text is false. -/
theorem C6_counterexample :
    (_process_pages fsC6 ["page_001.jpg".toList] {1}
        (fun _ => .ok "fresh".toList) (fun _ => false)).2
      = [.pageStarted 1 1, .pageCompleted 1 1 []] ∧
    load_page_text fsC6 1 = "hello".toList ∧
    ([] : List Char) ≠ "hello".toList := by
  refine ⟨rfl, by decide, by decide⟩
